import Mathlib

/-!
Verification of the text-chunking and relevance-ranking components of the
repository (files `lance_db_example/chunking.py` and
`c7_mcp/services/mcp.py`).  Strings are modelled as `List Char`, Python
integer arithmetic on non-negative offsets as `Nat` (Python slice indices
and `max(0, _)` clamping agree with truncated subtraction), Python
`str.strip`, `str.lower`, `str.split`, `str.rfind` and the `in` substring
test are modelled by the executable functions below.
-/

/-- Python `str.strip()`: remove leading and trailing whitespace. -/
def pyStrip (s : List Char) : List Char :=
  ((s.dropWhile Char.isWhitespace).reverse.dropWhile Char.isWhitespace).reverse

/-- Occurrence test: `pat` occurs in `s` at offset `i` (Python slice test `s[i:i+len(pat)] == pat`). -/
def matchesAt (pat s : List Char) (i : Nat) : Bool :=
  (s.drop i).take pat.length == pat

/-- Search downward from offset `n` for the right-most occurrence of `pat` in `s`. -/
def rfindFrom (s pat : List Char) : Nat → Option Nat
  | 0 => if matchesAt pat s 0 then some 0 else none
  | n + 1 => if matchesAt pat s (n + 1) then some (n + 1) else rfindFrom s pat n

/-- Python `s.rfind(pat)`: offset of the right-most occurrence, `none` for `-1`. -/
def rfind (s pat : List Char) : Option Nat :=
  rfindFrom s pat s.length

/-- The boundary markers of `chunk_text`, in source priority order:
`". "`, `"! "`, `"? "`, `"\n\n"`. -/
def delimiters : List (List Char) :=
  [['.', ' '], ['!', ' '], ['?', ' '], ['\n', '\n']]

/-- The delimiter loop of `chunk_text`: try each delimiter in order, returning
the `rfind` result and the delimiter length of the first delimiter found. -/
def findDelim (searchChunk : List Char) : List (List Char) → Option (Nat × Nat)
  | [] => none
  | d :: ds =>
    match rfind searchChunk d with
    | some i => some (i, d.length)
    | none => findDelim searchChunk ds

/-- The un-snapped window end of `chunk_text`: `end = min(start + chunk_size, text_len)`. -/
def rawWindowEnd (text : List Char) (chunkSize start : Nat) : Nat :=
  min (start + chunkSize) text.length

/-- The un-snapped window of `chunk_text`: `chunk = text[start:end]`. -/
def rawWindow (text : List Char) (chunkSize start : Nat) : List Char :=
  (text.drop start).take (rawWindowEnd text chunkSize start - start)

/-- The last 100 characters of the raw window, searched for boundary markers
(`search_chunk = chunk[max(0, len(chunk) - 100):]`). -/
def snapRegion (text : List Char) (chunkSize start : Nat) : List Char :=
  (rawWindow text chunkSize start).drop ((rawWindow text chunkSize start).length - 100)

/-- The adjusted window end of one `chunk_text` iteration: the raw end
`min(start + chunk_size, text_len)`, snapped back to end just after a sentence
boundary when the window does not reach the end of the text and is longer than
100 characters and a delimiter occurs in its last 100 characters. -/
def chunkWindow (text : List Char) (chunkSize start : Nat) : Nat :=
  let textLen := text.length
  let e := min (start + chunkSize) textLen
  let chunk := (text.drop start).take (e - start)
  if e < textLen ∧ 100 < chunk.length then
    let searchStart := chunk.length - 100
    let searchChunk := chunk.drop searchStart
    match findDelim searchChunk delimiters with
    | some (i, dlen) => start + (searchStart + i + dlen)
    | none => e
  else e

/-- The advance of the `chunk_text` loop:
`next_start = max(end - overlap, start + 1)`, falling back to `end` if that
did not move forward (a dead branch, kept from the source). -/
def nextStartOf (text : List Char) (chunkSize overlap start : Nat) : Nat :=
  let e := chunkWindow text chunkSize start
  let ns := max (e - overlap) (start + 1)
  if ns ≤ start then e else ns

/-- The main loop of `chunk_text`: window, snap, strip, keep non-empty, advance. -/
def chunkLoop (text : List Char) (chunkSize overlap : Nat) (start : Nat) : List (List Char) :=
  if start < text.length then
    let e := chunkWindow text chunkSize start
    let c := pyStrip ((text.drop start).take (e - start))
    let rest := chunkLoop text chunkSize overlap (nextStartOf text chunkSize overlap start)
    if c.isEmpty then rest else c :: rest
  else []
termination_by text.length - start
decreasing_by
  have h2 : start < nextStartOf text chunkSize overlap start := by
    unfold nextStartOf
    have h1 : start + 1 ≤ max (chunkWindow text chunkSize start - overlap) (start + 1) :=
      Nat.le_max_right _ _
    simp only []
    split
    · omega
    · omega
  omega

/-- Function `chunk_text` from `chunking.py`: split text into overlapping chunks with
sentence boundary detection. -/
def chunk_text (text : List Char) (chunkSize overlap : Nat) : List (List Char) :=
  if text.isEmpty then [] else chunkLoop text chunkSize overlap 0

/-- Number of iterations the `chunk_text` loop performs from offset `start`. -/
def chunkIters (text : List Char) (chunkSize overlap : Nat) (start : Nat) : Nat :=
  if start < text.length then
    chunkIters text chunkSize overlap (nextStartOf text chunkSize overlap start) + 1
  else 0
termination_by text.length - start
decreasing_by
  have h2 : start < nextStartOf text chunkSize overlap start := by
    unfold nextStartOf
    have h1 : start + 1 ≤ max (chunkWindow text chunkSize start - overlap) (start + 1) :=
      Nat.le_max_right _ _
    simp only []
    split
    · omega
    · omega
  omega

unseal chunkLoop chunkIters


/-! ## The relevance ranker of `query_docs` (`c7_mcp/services/mcp.py`) -/

/-- Python `str.lower()`. -/
def pyLower (s : List Char) : List Char :=
  s.map Char.toLower

/-- Accumulator-based scan behind `pySplitWs`. -/
def splitWsAux : List Char → List Char → List (List Char)
  | [], acc => if acc.isEmpty then [] else [acc.reverse]
  | c :: rest, acc =>
    if c.isWhitespace then
      if acc.isEmpty then splitWsAux rest [] else acc.reverse :: splitWsAux rest []
    else splitWsAux rest (c :: acc)

/-- Python `str.split()` with no argument: split on whitespace runs, no empty parts. -/
def pySplitWs (s : List Char) : List (List Char) :=
  splitWsAux s []

/-- Python `pat in s`: substring containment. -/
def isSubstring (pat s : List Char) : Bool :=
  (List.range (s.length + 1)).any fun i => matchesAt pat s i

/-- The `query_words` list of `query_docs`: lowercase the query, split on whitespace,
keep tokens longer than 2 characters (a list, not a set). -/
def queryKeywords (query : List Char) : List (List Char) :=
  (pySplitWs (pyLower query)).filter fun w => 2 < w.length

/-- The fragment score of `query_docs`:
`sum(1 for w in query_words if w in text_lower)`. -/
def scoreOf (query text : List Char) : Nat :=
  (queryKeywords query).countP fun w => isSubstring w (pyLower text)

/-- The `scored_chunks` list of `query_docs`, in input fragment order. -/
def scoredChunks (query : List Char) (chunks : List (List Char)) : List (Nat × List Char) :=
  chunks.map fun text => (scoreOf query text, text)

/-- Stable insertion of a scored fragment into a score-descending list: the new
element goes after every element of strictly higher score and before everything
else, so equal scores keep insertion order. -/
def insertDesc (x : Nat × List Char) : List (Nat × List Char) → List (Nat × List Char)
  | [] => [x]
  | y :: ys => if x.1 < y.1 then y :: insertDesc x ys else x :: y :: ys

/-- Python `scored_chunks.sort(key=lambda x: x[0], reverse=True)`: a stable
sort by score descending. -/
def sortByScoreDesc (l : List (Nat × List Char)) : List (Nat × List Char) :=
  l.foldr insertDesc []

/-- The assembly loop of `query_docs`: append fragments (each followed by a
blank line) while the projected length stays within 8000, else break. -/
def assembleLoop : List (Nat × List Char) → List Char → List Char
  | [], combined => combined
  | (_, t) :: rest, combined =>
    if 8000 < combined.length + t.length then combined
    else assembleLoop rest (combined ++ t ++ ['\n', '\n'])

/-- The ranking portion of `query_docs` (after the fragments of the library
have been retrieved): score, stable-sort descending, assemble under the
8000-character budget, and fall back to the first fragment's raw text when the
stripped assembly is empty.  `none` models the `IndexError` that
`chunks[0]` raises on an empty fragment list (the caller guards against it). -/
def rankerResponse (query : List Char) (chunks : List (List Char)) : Option (List Char) :=
  let sorted := sortByScoreDesc (scoredChunks query chunks)
  let combined := assembleLoop sorted []
  let stripped := pyStrip combined
  if stripped.isEmpty then chunks.head? else some stripped

/-! ## `chunk_by_sentences` and `chunk_by_tokens` (`chunking.py`) -/

/-- A sentence-ending character of the split pattern `(?<=[.!?])\s+`. -/
def isSentEnd (c : Char) : Bool :=
  c == '.' || c == '!' || c == '?'

/-- Scan behind `sentSplit`: split at each whitespace run whose preceding
character is `.`, `!` or `?`, consuming the whole run. -/
def sentSplitAux : List Char → List Char → List (List Char)
  | [], acc => [acc.reverse]
  | c :: rest, acc =>
    if c.isWhitespace ∧ (match acc with | p :: _ => isSentEnd p | [] => false) = true then
      acc.reverse :: sentSplitAux (rest.dropWhile Char.isWhitespace) []
    else sentSplitAux rest (c :: acc)
termination_by s _ => s.length
decreasing_by
  · have h3 := (List.dropWhile_sublist Char.isWhitespace (l := rest)).length_le
    simp only [List.length_cons]
    omega
  · simp only [List.length_cons]
    omega

/-- Python `re.split(r'(?<=[.!?])\s+', text)` from `chunk_by_sentences`. -/
def sentSplit (text : List Char) : List (List Char) :=
  sentSplitAux text []

/-- The processed sentence list of `chunk_by_sentences`:
`[s.strip() for s in sentences if s.strip()]`. -/
def procSentences (text : List Char) : List (List Char) :=
  ((sentSplit text).map pyStrip).filter fun s => !s.isEmpty

/-- Python `sep.join(parts)`. -/
def joinSep (sep : List Char) : List (List Char) → List Char
  | [] => []
  | [x] => x
  | x :: y :: rest => x ++ sep ++ joinSep sep (y :: rest)

/-- The common windowing loop of `chunk_by_sentences` and of the default path
of `chunk_by_tokens`: join `items[i:i+maxN]` with spaces and advance `i` by
`max(1, maxN - ovN)`. -/
def windowLoop (items : List (List Char)) (maxN ovN : Nat) (i : Nat) : List (List Char) :=
  if i < items.length then
    joinSep [' '] ((items.drop i).take maxN) :: windowLoop items maxN ovN (i + max 1 (maxN - ovN))
  else []
termination_by items.length - i
decreasing_by
  have h4 : 1 ≤ max 1 (maxN - ovN) := Nat.le_max_left _ _
  omega

/-- Function `chunk_by_sentences` from `chunking.py`. -/
def chunk_by_sentences (text : List Char) (maxSentences overlapSentences : Nat) :
    List (List Char) :=
  if text.isEmpty then []
  else
    let sentences := procSentences text
    if sentences.isEmpty then []
    else windowLoop sentences maxSentences overlapSentences 0

/-- The default (`tokenizer=None`) path of `chunk_by_tokens` from `chunking.py`. -/
def chunk_by_tokens (text : List Char) (maxTokens overlapTokens : Nat) : List (List Char) :=
  if text.isEmpty then [] else windowLoop (pySplitWs text) maxTokens overlapTokens 0

unseal sentSplitAux windowLoop


/-! ## Helper lemmas -/

theorem nextStartOf_eq (text : List Char) (chunkSize overlap start : Nat) :
    nextStartOf text chunkSize overlap start =
      max (chunkWindow text chunkSize start - overlap) (start + 1) := by
  unfold nextStartOf
  simp only []
  split
  · omega
  · rfl

theorem lt_nextAdvance (text : List Char) (chunkSize overlap start : Nat) :
    start < nextStartOf text chunkSize overlap start := by
  rw [nextStartOf_eq]
  omega

theorem chunkIters_le_sub (text : List Char) (chunkSize overlap : Nat) :
    ∀ n start, text.length - start ≤ n →
      chunkIters text chunkSize overlap start ≤ text.length - start := by
  intro n
  induction n with
  | zero =>
    intro start h
    rw [chunkIters, if_neg (by omega)]
    omega
  | succ n ih =>
    intro start h
    rw [chunkIters]
    split
    · next hlt =>
      have h2 := lt_nextAdvance text chunkSize overlap start
      have h3 := ih (nextStartOf text chunkSize overlap start) (by omega)
      omega
    · omega

theorem head_dropWhile_false {α : Type} (p : α → Bool) :
    ∀ {l : List α} {a : α} {r : List α}, l.dropWhile p = a :: r → p a = false := by
  intro l
  induction l with
  | nil =>
    intro a r h
    simp [List.dropWhile] at h
  | cons b l ih =>
    intro a r h
    rw [List.dropWhile_cons] at h
    split at h
    · exact ih h
    · next hpb =>
      cases h
      simpa using hpb

theorem pyStrip_shape (s : List Char) :
    ∃ u, s.dropWhile Char.isWhitespace = pyStrip s ++ u := by
  obtain ⟨u, hu⟩ :=
    List.dropWhile_suffix (l := (s.dropWhile Char.isWhitespace).reverse) Char.isWhitespace
  refine ⟨u.reverse, ?_⟩
  have h2 : s.dropWhile Char.isWhitespace =
      (u ++ (s.dropWhile Char.isWhitespace).reverse.dropWhile Char.isWhitespace).reverse := by
    rw [hu, List.reverse_reverse]
  rw [h2, List.reverse_append]
  rfl

theorem pyStrip_solid (s : List Char) (h : pyStrip s ≠ []) :
    ∃ c ∈ pyStrip s, c.isWhitespace = false := by
  obtain ⟨u, hu⟩ := pyStrip_shape s
  cases hps : pyStrip s with
  | nil => exact absurd hps h
  | cons c cs =>
    rw [hps] at hu
    have hc : Char.isWhitespace c = false := head_dropWhile_false _ hu
    exact ⟨c, by simp, hc⟩

theorem pyStrip_length_le (s : List Char) : (pyStrip s).length ≤ s.length := by
  have h1 := (List.dropWhile_sublist (l := s) Char.isWhitespace).length_le
  have h2 := (List.dropWhile_sublist (l := (s.dropWhile Char.isWhitespace).reverse)
    Char.isWhitespace).length_le
  unfold pyStrip
  simp only [List.length_reverse] at *
  omega

theorem matchesAt_bound {pat s : List Char} {i : Nat} (hp : pat ≠ [])
    (h : matchesAt pat s i = true) : i + pat.length ≤ s.length := by
  unfold matchesAt at h
  have h2 := congrArg List.length (eq_of_beq h)
  simp [List.length_take, List.length_drop] at h2
  have h3 : 0 < pat.length := List.length_pos.mpr hp
  omega

theorem matchesAt_oob {pat s : List Char} {i : Nat} (hp : pat ≠ [])
    (h : s.length ≤ i) : matchesAt pat s i = false := by
  unfold matchesAt
  rw [List.drop_eq_nil_of_le h]
  cases pat with
  | nil => exact absurd rfl hp
  | cons c cs => rfl

theorem rfindFrom_some_spec (s pat : List Char) :
    ∀ n i, rfindFrom s pat n = some i →
      matchesAt pat s i = true ∧ i ≤ n ∧
        ∀ j, i < j → j ≤ n → matchesAt pat s j = false := by
  intro n
  induction n with
  | zero =>
    intro i h
    unfold rfindFrom at h
    split at h
    · next hm =>
      cases h
      exact ⟨hm, Nat.le_refl _, fun j hj1 hj2 => by omega⟩
    · cases h
  | succ n ih =>
    intro i h
    unfold rfindFrom at h
    split at h
    · next hm =>
      cases h
      exact ⟨hm, Nat.le_refl _, fun j hj1 hj2 => by omega⟩
    · next hm =>
      obtain ⟨h1, h2, h3⟩ := ih i h
      refine ⟨h1, by omega, fun j hj1 hj2 => ?_⟩
      rcases Nat.lt_or_ge j (n + 1) with hj | hj
      · exact h3 j hj1 (by omega)
      · have hjeq : j = n + 1 := by omega
        subst hjeq
        simpa using hm

theorem rfindFrom_none_spec (s pat : List Char) :
    ∀ n, rfindFrom s pat n = none → ∀ j, j ≤ n → matchesAt pat s j = false := by
  intro n
  induction n with
  | zero =>
    intro h j hj
    unfold rfindFrom at h
    split at h
    · cases h
    · next hm =>
      have hj0 : j = 0 := by omega
      subst hj0
      simpa using hm
  | succ n ih =>
    intro h j hj
    unfold rfindFrom at h
    split at h
    · cases h
    · next hm =>
      rcases Nat.lt_or_ge j (n + 1) with hlt | hge
      · exact ih h j (by omega)
      · have hjeq : j = n + 1 := by omega
        subst hjeq
        simpa using hm

theorem rfind_some_spec {s pat : List Char} {i : Nat} (hp : pat ≠ [])
    (h : rfind s pat = some i) :
    matchesAt pat s i = true ∧ ∀ j, i < j → matchesAt pat s j = false := by
  obtain ⟨h1, h2, h3⟩ := rfindFrom_some_spec s pat s.length i h
  refine ⟨h1, fun j hj => ?_⟩
  rcases le_or_lt j s.length with hcase | hcase
  · exact h3 j hj hcase
  · exact matchesAt_oob hp (by omega)

theorem rfind_none_spec {s pat : List Char} (hp : pat ≠ [])
    (h : rfind s pat = none) : ∀ j, matchesAt pat s j = false := by
  intro j
  rcases le_or_lt j s.length with hcase | hcase
  · exact rfindFrom_none_spec s pat s.length h j hcase
  · exact matchesAt_oob hp (by omega)

theorem findDelim_some_bound (S : List Char) :
    ∀ ds : List (List Char), (∀ d ∈ ds, d ≠ []) →
      ∀ i dlen, findDelim S ds = some (i, dlen) →
        0 < dlen ∧ i + dlen ≤ S.length := by
  intro ds
  induction ds with
  | nil =>
    intro _ i dlen h
    simp [findDelim] at h
  | cons d ds ih =>
    intro hne i dlen h
    unfold findDelim at h
    cases hrf : rfind S d with
    | some j =>
      rw [hrf] at h
      cases h
      have hd : d ≠ [] := hne d (by simp)
      obtain ⟨hm, _⟩ := rfind_some_spec hd hrf
      have hb := matchesAt_bound hd hm
      exact ⟨List.length_pos.mpr hd, hb⟩
    | none =>
      rw [hrf] at h
      exact ih (fun x hx => hne x (by simp [hx])) i dlen h

theorem chunkWindow_le (text : List Char) (chunkSize start : Nat) :
    chunkWindow text chunkSize start ≤ min (start + chunkSize) text.length := by
  unfold chunkWindow
  simp only []
  split
  · next hcond =>
    split
    · next i dlen hfd =>
      have hb := findDelim_some_bound _ delimiters (by decide) i dlen hfd
      simp only [List.length_drop] at hb
      have hclen : ((text.drop start).take (min (start + chunkSize) text.length - start)).length =
          min (min (start + chunkSize) text.length - start) (text.length - start) := by
        simp [List.length_take, List.length_drop]
      obtain ⟨hcond1, hcond2⟩ := hcond
      omega
    · next hfd => exact Nat.le_refl _
  · exact Nat.le_refl _

theorem chunkLoop_mem_spec (text : List Char) (chunkSize overlap : Nat) :
    ∀ n start c, text.length - start ≤ n →
      c ∈ chunkLoop text chunkSize overlap start →
      ∃ s : List Char, c = pyStrip s ∧ c ≠ [] ∧ s.length ≤ chunkSize := by
  intro n
  induction n with
  | zero =>
    intro start c h hc
    rw [chunkLoop, if_neg (by omega)] at hc
    simp at hc
  | succ n ih =>
    intro start c h hc
    rw [chunkLoop] at hc
    split at hc
    · next hlt =>
      simp only [] at hc
      have hnext := lt_nextAdvance text chunkSize overlap start
      split at hc
      · exact ih (nextStartOf text chunkSize overlap start) c (by omega) hc
      · next hne =>
        rcases List.mem_cons.mp hc with hceq | hcrest
        · subst hceq
          refine ⟨(text.drop start).take (chunkWindow text chunkSize start - start), rfl, ?_, ?_⟩
          · simpa [List.isEmpty_iff] using hne
          · have hcw := chunkWindow_le text chunkSize start
            simp only [List.length_take, List.length_drop]
            omega
        · exact ih (nextStartOf text chunkSize overlap start) c (by omega) hcrest
    · simp at hc

/-! ## Claim theorems for `chunk_text` -/

/-- Claim C1: for every text, chunk size > 0 and overlap, the advance of the
`chunk_text` loop is `max(window_end - overlap, previous_start + 1)`, which
strictly increases the start offset, and the loop therefore terminates after
at most `len(text)` iterations. -/
theorem chunk_text_forward_progress (text : List Char) (chunkSize overlap start : Nat)
    (hcs : 0 < chunkSize) :
    nextStartOf text chunkSize overlap start =
      max (chunkWindow text chunkSize start - overlap) (start + 1) ∧
    start < nextStartOf text chunkSize overlap start ∧
    chunkIters text chunkSize overlap 0 ≤ text.length := by
  refine ⟨nextStartOf_eq text chunkSize overlap start,
    lt_nextAdvance text chunkSize overlap start, ?_⟩
  have h := chunkIters_le_sub text chunkSize overlap text.length 0 (by omega)
  omega

/-- Witness for C1: a concrete text with `overlap > chunk_size`. -/
theorem chunk_text_forward_progress_witness :
    nextStartOf ['a', 'b'] 1 5 0 = max (chunkWindow ['a', 'b'] 1 0 - 5) (0 + 1) ∧
    0 < nextStartOf ['a', 'b'] 1 5 0 ∧
    chunkIters ['a', 'b'] 1 5 0 ≤ ['a', 'b'].length :=
  chunk_text_forward_progress ['a', 'b'] 1 5 0 (by decide)

/-- Counterexample for C4: the text `"ab"` is non-empty and shorter than the chunk
size 3, yet with overlap 1 `chunk_text` returns two chunks, not one; and the
whitespace-only text `" "` (shorter than 3, overlap 0) yields no chunk at all
rather than one whole-trimmed chunk. -/
theorem chunk_text_short_cex :
    chunk_text ['a', 'b'] 3 1 = [['a', 'b'], ['b']] ∧
    (chunk_text ['a', 'b'] 3 1).length ≠ 1 ∧
    chunk_text [' '] 3 0 = [] := by decide

/-- Claim C4 as amended: `chunk_text` on the empty string returns the empty list, and
for a non-empty text shorter than `chunk_size` chunked with `overlap = 0` it
returns exactly one chunk — the whole text trimmed — unless the text is
whitespace-only, in which case the trimmed chunk is dropped and the result is
empty.  (With `overlap > 0` the loop re-enters the tail of the text and can
return further suffix chunks.) -/
theorem chunk_text_short (text : List Char) (chunkSize overlap : Nat)
    (h0 : text ≠ []) (h1 : text.length < chunkSize) :
    chunk_text [] chunkSize overlap = [] ∧
    chunk_text text chunkSize 0 =
      if (pyStrip text).isEmpty then [] else [pyStrip text] := by
  have hlen : 0 < text.length := List.length_pos.mpr h0
  have he : chunkWindow text chunkSize 0 = text.length := by
    unfold chunkWindow
    simp only []
    have hmin : min (0 + chunkSize) text.length = text.length := by omega
    rw [hmin, if_neg]
    intro hcon
    exact absurd hcon.1 (lt_irrefl _)
  have hnext : nextStartOf text chunkSize 0 0 = text.length := by
    rw [nextStartOf_eq, he]
    omega
  refine ⟨rfl, ?_⟩
  unfold chunk_text
  rw [if_neg (by simpa [List.isEmpty_iff] using h0)]
  rw [chunkLoop, if_pos hlen]
  simp only [he, hnext]
  rw [chunkLoop, if_neg (lt_irrefl _)]
  simp [List.take_length]

/-- Witness for C4 (amended): concrete evaluations at overlap 0. -/
theorem chunk_text_short_witness :
    chunk_text [] 3 2 = [] ∧
    chunk_text ['a', 'b'] 3 0 =
      if (pyStrip ['a', 'b']).isEmpty then [] else [pyStrip ['a', 'b']] :=
  chunk_text_short ['a', 'b'] 3 2 (by decide) (by decide)

/-- Claim C8: for a non-empty text and positive chunk size, every chunk returned by
`chunk_text` is non-empty and contains a non-whitespace character (chunks are
trimmed and empty results are dropped). -/
theorem chunk_text_chunks_solid (text : List Char) (chunkSize overlap : Nat) (c : List Char)
    (h0 : text ≠ []) (hcs : 0 < chunkSize)
    (hc : c ∈ chunk_text text chunkSize overlap) :
    c ≠ [] ∧ ∃ ch ∈ c, ch.isWhitespace = false := by
  unfold chunk_text at hc
  split at hc
  · simp at hc
  · obtain ⟨s, hcfrom, hne, hsl⟩ :=
      chunkLoop_mem_spec text chunkSize overlap text.length 0 c (by omega) hc
    refine ⟨hne, ?_⟩
    rw [hcfrom] at hne ⊢
    exact pyStrip_solid s hne

/-- Witness for C8 at a concrete input. -/
theorem chunk_text_chunks_solid_witness :
    (['a', 'b'] : List Char) ≠ [] ∧ ∃ ch ∈ (['a', 'b'] : List Char), ch.isWhitespace = false :=
  chunk_text_chunks_solid ['a', 'b'] 3 1 ['a', 'b'] (by decide) (by decide) (by decide)

/-- Claim C9: every chunk returned by `chunk_text` has length at most `chunk_size`:
each window is at most `chunk_size` characters, boundary snapping only shrinks
it, and trimming never lengthens it. -/
theorem chunk_text_chunk_length (text : List Char) (chunkSize overlap : Nat) (c : List Char)
    (hcs : 0 < chunkSize) (hc : c ∈ chunk_text text chunkSize overlap) :
    c.length ≤ chunkSize := by
  unfold chunk_text at hc
  split at hc
  · simp at hc
  · obtain ⟨s, hcfrom, hne, hsl⟩ :=
      chunkLoop_mem_spec text chunkSize overlap text.length 0 c (by omega) hc
    have hstrip := pyStrip_length_le s
    rw [hcfrom]
    omega

/-- Witness for C9 at a concrete input. -/
theorem chunk_text_chunk_length_witness : (['a', 'b'] : List Char).length ≤ 3 :=
  chunk_text_chunk_length ['a', 'b'] 3 1 ['a', 'b'] (by decide) (by decide)

/-! ## Ranker lemmas -/

theorem mem_insertDesc (x y : Nat × List Char) :
    ∀ l, y ∈ insertDesc x l ↔ y = x ∨ y ∈ l := by
  intro l
  induction l with
  | nil => simp [insertDesc]
  | cons z l ih =>
    unfold insertDesc
    split
    · simp only [List.mem_cons, ih]
      tauto
    · simp only [List.mem_cons]

theorem pairwise_insertDesc (x : Nat × List Char) :
    ∀ l, List.Pairwise (fun a b : Nat × List Char => b.1 ≤ a.1) l →
      List.Pairwise (fun a b : Nat × List Char => b.1 ≤ a.1) (insertDesc x l) := by
  intro l
  induction l with
  | nil =>
    intro _
    simp [insertDesc]
  | cons z l ih =>
    intro hp
    rw [List.pairwise_cons] at hp
    unfold insertDesc
    split
    · next hlt =>
      rw [List.pairwise_cons]
      refine ⟨fun y hy => ?_, ih hp.2⟩
      rcases (mem_insertDesc x y l).mp hy with rfl | hyl
      · omega
      · exact hp.1 y hyl
    · next hge =>
      rw [List.pairwise_cons]
      refine ⟨fun y hy => ?_, List.pairwise_cons.mpr hp⟩
      rcases List.mem_cons.mp hy with rfl | hyl
      · omega
      · have h1 := hp.1 y hyl
        omega

theorem sortByScoreDesc_pairwise (l : List (Nat × List Char)) :
    List.Pairwise (fun a b : Nat × List Char => b.1 ≤ a.1) (sortByScoreDesc l) := by
  induction l with
  | nil => simp [sortByScoreDesc]
  | cons a l ih => exact pairwise_insertDesc a (sortByScoreDesc l) ih

theorem filter_insertDesc (s : Nat) (x : Nat × List Char) :
    ∀ l, (insertDesc x l).filter (fun p => p.1 == s) =
      if x.1 == s then x :: l.filter (fun p => p.1 == s)
      else l.filter (fun p => p.1 == s) := by
  intro l
  induction l with
  | nil => simp [insertDesc, List.filter_cons]
  | cons z l ih =>
    unfold insertDesc
    split
    · next hlt =>
      by_cases hx : x.1 = s
      · have hzs : (z.1 == s) = false := by
          have hzx : z.1 ≠ s := by omega
          simpa using hzx
        simp [List.filter_cons, hzs, hx, ih]
      · have hxf : (x.1 == s) = false := by simpa using hx
        simp [List.filter_cons, hxf, ih]
    · next hge =>
      rw [List.filter_cons]

theorem sortByScoreDesc_filter (s : Nat) :
    ∀ l : List (Nat × List Char),
      (sortByScoreDesc l).filter (fun p => p.1 == s) = l.filter (fun p => p.1 == s) := by
  intro l
  induction l with
  | nil => rfl
  | cons a l ih =>
    have hfold : sortByScoreDesc (a :: l) = insertDesc a (sortByScoreDesc l) := rfl
    rw [hfold, filter_insertDesc, ih, List.filter_cons]

theorem assembleLoop_le :
    ∀ (l : List (Nat × List Char)) (acc : List Char), acc.length ≤ 8002 →
      (assembleLoop l acc).length ≤ 8002 := by
  intro l
  induction l with
  | nil =>
    intro acc h
    exact h
  | cons p rest ih =>
    intro acc h
    obtain ⟨n, t⟩ := p
    unfold assembleLoop
    split
    · exact h
    · next hle =>
      apply ih
      simp only [List.length_append, List.length_cons, List.length_nil]
      omega

theorem assembleLoop_shape :
    ∀ (l : List (Nat × List Char)) (acc : List Char),
      (acc = [] ∨ ∃ pre, acc = pre ++ ['\n', '\n']) →
      (assembleLoop l acc = [] ∨ ∃ pre, assembleLoop l acc = pre ++ ['\n', '\n']) := by
  intro l
  induction l with
  | nil =>
    intro acc h
    exact h
  | cons p rest ih =>
    intro acc h
    obtain ⟨n, t⟩ := p
    unfold assembleLoop
    split
    · exact h
    · apply ih
      right
      exact ⟨acc ++ t, by simp⟩

theorem pyStrip_append_nn (pre : List Char) :
    pyStrip (pre ++ ['\n', '\n']) = pyStrip pre := by
  unfold pyStrip
  rw [List.dropWhile_append]
  split
  · next hemp =>
    have h1 : List.dropWhile Char.isWhitespace ['\n', '\n'] = [] := by decide
    have h2 : pre.dropWhile Char.isWhitespace = [] := by
      simpa [List.isEmpty_iff] using hemp
    rw [h1, h2]
  · next hemp =>
    rw [List.reverse_append,
      List.dropWhile_append_of_pos (fun a ha => by simp at ha; subst ha; decide)]

theorem assembled_strip_le (sorted : List (Nat × List Char)) :
    (pyStrip (assembleLoop sorted [])).length ≤ 8000 := by
  have hlen := assembleLoop_le sorted [] (by simp)
  rcases assembleLoop_shape sorted [] (Or.inl rfl) with hnil | ⟨pre, hpre⟩
  · rw [hnil]
    simp [pyStrip]
  · rw [hpre, pyStrip_append_nn]
    have h1 := pyStrip_length_le pre
    have h2 : (pre ++ ['\n', '\n']).length = pre.length + 2 := by simp
    rw [hpre] at hlen
    omega

/-! ## Claim theorems for the ranker -/

/-- Counterexample for C3: for the query `"foo foo"` and the fragment `"foo"` the
code's score is 2 (the keyword list keeps duplicates), while the count of
distinct matching keywords is 1 — the score is not the distinct-keyword
count. -/
theorem score_distinct_cex :
    scoreOf ['f', 'o', 'o', ' ', 'f', 'o', 'o'] ['f', 'o', 'o'] = 2 ∧
    ((queryKeywords ['f', 'o', 'o', ' ', 'f', 'o', 'o']).dedup.filter fun w =>
        isSubstring w (pyLower ['f', 'o', 'o'])).length = 1 := by decide

/-- Claim C3 as amended: the score is the count, with multiplicity, of entries of the
whitespace-split keyword list (tokens of length > 2) that occur as substrings
of the lowercased fragment; each list entry contributes at most 1 no matter
how often it repeats inside the fragment.  The distinct-keyword count of the
original claim is a lower bound, with equality whenever the query contains no
repeated keyword. -/
theorem score_keyword_multiplicity (query text : List Char) :
    scoreOf query text =
      ((queryKeywords query).filter fun w => isSubstring w (pyLower text)).length ∧
    ((queryKeywords query).dedup.filter fun w => isSubstring w (pyLower text)).length ≤
      scoreOf query text ∧
    ((queryKeywords query).Nodup →
      scoreOf query text =
        ((queryKeywords query).dedup.filter fun w => isSubstring w (pyLower text)).length) := by
  refine ⟨List.countP_eq_length_filter _ _, ?_, ?_⟩
  · have hsub := (((queryKeywords query).dedup_sublist).filter
      (fun w => isSubstring w (pyLower text))).length_le
    rw [scoreOf, List.countP_eq_length_filter]
    exact hsub
  · intro hnd
    rw [scoreOf, List.countP_eq_length_filter, hnd.dedup]

/-- Witness for C3 (amended), at a duplicate-free query. -/
theorem score_keyword_multiplicity_witness :
    scoreOf ['f', 'o', 'o', ' ', 'b', 'a', 'r'] ['f', 'o', 'o', 'd'] =
      ((queryKeywords ['f', 'o', 'o', ' ', 'b', 'a', 'r']).dedup.filter fun w =>
          isSubstring w (pyLower ['f', 'o', 'o', 'd'])).length :=
  (score_keyword_multiplicity ['f', 'o', 'o', ' ', 'b', 'a', 'r'] ['f', 'o', 'o', 'd']).2.2
    (by decide)

/-- Claim C6: the ranker's sort orders the scored fragments by score descending, and
it is stable: for every score value, the subsequence of fragments having that
score is exactly the corresponding subsequence of the input fragment order. -/
theorem ranker_sort_stable (query : List Char) (chunks : List (List Char)) (s : Nat) :
    List.Pairwise (fun a b : Nat × List Char => b.1 ≤ a.1)
      (sortByScoreDesc (scoredChunks query chunks)) ∧
    (sortByScoreDesc (scoredChunks query chunks)).filter (fun p => p.1 == s) =
      (scoredChunks query chunks).filter (fun p => p.1 == s) :=
  ⟨sortByScoreDesc_pairwise _, sortByScoreDesc_filter s _⟩

/-- Claim C5: a returned ranker response either has length at most 8000 (the
assembled, budgeted case) or is verbatim one of the input fragments (the
fallback case), so its length never exceeds 8000 plus the length of that one
fragment. -/
theorem ranker_length_bound (query : List Char) (chunks : List (List Char)) (r : List Char)
    (h : rankerResponse query chunks = some r) :
    r.length ≤ 8000 ∨ ∃ t ∈ chunks, r = t ∧ r.length ≤ 8000 + t.length := by
  unfold rankerResponse at h
  simp only [] at h
  split at h
  · right
    have hmem : r ∈ chunks := by
      cases chunks with
      | nil => simp at h
      | cons a l =>
        simp only [List.head?_cons, Option.some.injEq] at h
        simp [← h]
    exact ⟨r, hmem, rfl, by omega⟩
  · left
    have hr : pyStrip (assembleLoop (sortByScoreDesc (scoredChunks query chunks)) []) = r := by
      simpa using h
    rw [← hr]
    exact assembled_strip_le _

/-- Witness for C5 at a concrete query and fragment list. -/
theorem ranker_length_bound_witness :
    (['f', 'o', 'o'] : List Char).length ≤ 8000 ∨
    ∃ t ∈ [['f', 'o', 'o']], ['f', 'o', 'o'] = t ∧
      (['f', 'o', 'o'] : List Char).length ≤ 8000 + t.length :=
  ranker_length_bound ['f', 'o', 'o'] [['f', 'o', 'o']] ['f', 'o', 'o'] (by decide)

/-- Counterexample for C7: on an empty fragment list the ranker does not return an
empty string — the `chunks[0]` fallback subscript fails (modelled as `none`,
Python raises `IndexError`). -/
theorem ranker_empty_cex :
    rankerResponse ['q', 'r', 'y'] [] = none ∧
    rankerResponse ['q', 'r', 'y'] [] ≠ some [] := by decide

/-- Claim C7 as amended: whenever the stripped assembled response is empty, the ranker
returns the first fragment's raw text (`chunks.head?`); on an empty fragment
list that first-fragment access fails (`none`, an `IndexError` in Python)
rather than producing an empty string — `query_docs` never reaches the ranker
with an empty fragment list, returning a not-found message beforehand. -/
theorem ranker_fallback (query : List Char) (chunks : List (List Char))
    (h : pyStrip (assembleLoop (sortByScoreDesc (scoredChunks query chunks)) []) = []) :
    rankerResponse query chunks = chunks.head? := by
  unfold rankerResponse
  simp only []
  rw [if_pos (by rw [h]; rfl)]

/-- Witness for C7 (amended): a whitespace-only fragment assembles to an
empty stripped response and the fallback returns it raw. -/
theorem ranker_fallback_witness :
    rankerResponse ['h', 'i'] [[' ']] = some [' '] :=
  ranker_fallback ['h', 'i'] [[' ']] (by decide)

/-! ## Boundary-snap characterization (C2) -/

theorem findDelim_spec (S : List Char) :
    ∀ ds : List (List Char), (∀ d ∈ ds, d ≠ []) →
      (findDelim S ds = none ∧ ∀ d ∈ ds, ∀ j, matchesAt d S j = false) ∨
      (∃ kidx : Nat, ∃ hk : kidx < ds.length, ∃ i : Nat,
        findDelim S ds = some (i, (ds.get ⟨kidx, hk⟩).length) ∧
        matchesAt (ds.get ⟨kidx, hk⟩) S i = true ∧
        (∀ j, i < j → matchesAt (ds.get ⟨kidx, hk⟩) S j = false) ∧
        ∀ k2 : Nat, ∀ hk2 : k2 < ds.length, k2 < kidx →
          ∀ j, matchesAt (ds.get ⟨k2, hk2⟩) S j = false) := by
  intro ds
  induction ds with
  | nil =>
    intro _
    left
    exact ⟨rfl, by simp⟩
  | cons d ds ih =>
    intro hne
    have hd : d ≠ [] := hne d (by simp)
    cases hrf : rfind S d with
    | some i =>
      right
      obtain ⟨hm, hmax⟩ := rfind_some_spec hd hrf
      refine ⟨0, by simp, i, ?_, hm, hmax, ?_⟩
      · unfold findDelim
        rw [hrf]
        rfl
      · intro k2 hk2 hlt j
        omega
    | none =>
      rcases ih (fun x hx => hne x (by simp [hx])) with ⟨hfd, hall⟩ |
        ⟨kidx, hk, i, hfd, hm, hmax, hpre⟩
      · left
        refine ⟨?_, ?_⟩
        · unfold findDelim
          rw [hrf]
          exact hfd
        · intro x hx j
          rcases List.mem_cons.mp hx with rfl | hx2
          · exact rfind_none_spec hd hrf j
          · exact hall x hx2 j
      · right
        refine ⟨kidx + 1, by simpa using hk, i, ?_, hm, hmax, ?_⟩
        · unfold findDelim
          rw [hrf]
          exact hfd
        · intro k2 hk2 hlt j
          cases k2 with
          | zero => exact rfind_none_spec hd hrf j
          | succ m => exact hpre m (by omega) (by omega) j

/-- Claim C2: when the raw window neither reaches the end of the text nor is 100
characters or shorter, `chunk_text` snaps the window end as the spec says:
if none of the four markers occurs in the last 100 characters of the window,
the full-size window end is kept; otherwise, taking the first marker (in the
priority order `". "`, `"! "`, `"? "`, `"\n\n"`) that occurs there, the window
is cut to end immediately after that marker's right-most occurrence. -/
theorem chunk_text_boundary_snap (text : List Char) (chunkSize start : Nat)
    (h1 : rawWindowEnd text chunkSize start < text.length)
    (h2 : 100 < (rawWindow text chunkSize start).length) :
    (chunkWindow text chunkSize start = rawWindowEnd text chunkSize start ∧
      ∀ d ∈ delimiters, ∀ j, matchesAt d (snapRegion text chunkSize start) j = false) ∨
    (∃ kidx : Nat, ∃ hk : kidx < delimiters.length, ∃ i : Nat,
      matchesAt (delimiters.get ⟨kidx, hk⟩) (snapRegion text chunkSize start) i = true ∧
      (∀ j, i < j →
        matchesAt (delimiters.get ⟨kidx, hk⟩) (snapRegion text chunkSize start) j = false) ∧
      (∀ k2 : Nat, ∀ hk2 : k2 < delimiters.length, k2 < kidx →
        ∀ j, matchesAt (delimiters.get ⟨k2, hk2⟩) (snapRegion text chunkSize start) j = false) ∧
      chunkWindow text chunkSize start =
        start + ((rawWindow text chunkSize start).length - 100) + i +
          (delimiters.get ⟨kidx, hk⟩).length) := by
  have hcw : chunkWindow text chunkSize start =
      match findDelim (snapRegion text chunkSize start) delimiters with
      | some (i, dlen) => start + ((rawWindow text chunkSize start).length - 100 + i + dlen)
      | none => rawWindowEnd text chunkSize start := by
    unfold chunkWindow
    simp only []
    rw [if_pos ⟨h1, h2⟩]
    rfl
  rcases findDelim_spec (snapRegion text chunkSize start) delimiters (by decide) with
    ⟨hfd, hall⟩ | ⟨kidx, hk, i, hfd, hm, hmax, hpre⟩
  · left
    refine ⟨?_, hall⟩
    rw [hcw, hfd]
  · right
    refine ⟨kidx, hk, i, hm, hmax, hpre, ?_⟩
    have heq : chunkWindow text chunkSize start =
        start + ((rawWindow text chunkSize start).length - 100 + i +
          (delimiters.get ⟨kidx, hk⟩).length) := by
      rw [hcw, hfd]
    omega

set_option maxRecDepth 4000 in
/-- Witness for C2: a 160-character text with a 120-character window. -/
theorem chunk_text_boundary_snap_witness :
    (chunkWindow (List.replicate 160 'a') 120 0 = rawWindowEnd (List.replicate 160 'a') 120 0 ∧
      ∀ d ∈ delimiters, ∀ j,
        matchesAt d (snapRegion (List.replicate 160 'a') 120 0) j = false) ∨
    (∃ kidx : Nat, ∃ hk : kidx < delimiters.length, ∃ i : Nat,
      matchesAt (delimiters.get ⟨kidx, hk⟩) (snapRegion (List.replicate 160 'a') 120 0) i =
        true ∧
      (∀ j, i < j →
        matchesAt (delimiters.get ⟨kidx, hk⟩) (snapRegion (List.replicate 160 'a') 120 0) j =
          false) ∧
      (∀ k2 : Nat, ∀ hk2 : k2 < delimiters.length, k2 < kidx →
        ∀ j, matchesAt (delimiters.get ⟨k2, hk2⟩) (snapRegion (List.replicate 160 'a') 120 0) j =
          false) ∧
      chunkWindow (List.replicate 160 'a') 120 0 =
        0 + ((rawWindow (List.replicate 160 'a') 120 0).length - 100) + i +
          (delimiters.get ⟨kidx, hk⟩).length) :=
  chunk_text_boundary_snap (List.replicate 160 'a') 120 0 (by decide) (by decide)

/-! ## Window coverage for `chunk_by_sentences` and `chunk_by_tokens` (C10) -/

theorem joinSep_within (sep : List Char) :
    ∀ (ws : List (List Char)) (x : List Char), x ∈ ws → x <:+: joinSep sep ws := by
  intro ws
  induction ws with
  | nil =>
    intro x hx
    simp at hx
  | cons w rest ih =>
    intro x hx
    rcases List.mem_cons.mp hx with rfl | hx2
    · cases rest with
      | nil => exact ⟨[], [], by simp [joinSep]⟩
      | cons r rs => exact ⟨[], sep ++ joinSep sep (r :: rs), by simp [joinSep]⟩
    · cases rest with
      | nil => simp at hx2
      | cons r rs =>
        obtain ⟨u, v, huv⟩ := ih x hx2
        refine ⟨w ++ sep ++ u, v, ?_⟩
        rw [joinSep]
        rw [← huv]
        simp

theorem windowLoop_cover (items : List (List Char)) (maxN ovN : Nat) (hmax : 1 ≤ maxN) :
    ∀ n i k, ∀ hk : k < items.length, i ≤ k → items.length - i ≤ n →
      ∃ c ∈ windowLoop items maxN ovN i, items.get ⟨k, hk⟩ <:+: c := by
  intro n
  induction n with
  | zero =>
    intro i k hk hik h
    omega
  | succ n ih =>
    intro i k hk hik h
    have hi : i < items.length := by omega
    rw [windowLoop, if_pos hi]
    by_cases hwin : k < i + maxN
    · have hlen1 : k - i < ((items.drop i).take maxN).length := by
        simp only [List.length_take, List.length_drop]
        omega
      have hmem := List.get_mem ((items.drop i).take maxN) (k - i) hlen1
      have heq : ((items.drop i).take maxN).get ⟨k - i, hlen1⟩ = items.get ⟨k, hk⟩ := by
        simp only [List.get_eq_getElem, List.getElem_take, List.getElem_drop]
        congr 1
        omega
      rw [heq] at hmem
      exact ⟨joinSep [' '] ((items.drop i).take maxN), by simp,
        joinSep_within [' '] _ _ hmem⟩
    · have hstep : max 1 (maxN - ovN) ≤ maxN := by omega
      obtain ⟨c, hc, hcx⟩ := ih (i + max 1 (maxN - ovN)) k hk (by omega) (by omega)
      exact ⟨c, List.mem_cons_of_mem _ hc, hcx⟩

/-- Claim C10: with a window of at least one sentence, every processed sentence of
`chunk_by_sentences` occurs (as a contiguous substring) in at least one
returned chunk, because the step `max(1, max_sentences - overlap_sentences)`
never exceeds the window size; likewise every whitespace-split word of the
default path of `chunk_by_tokens` occurs in at least one returned chunk. -/
theorem sentence_token_coverage (text : List Char) (maxS ovS maxT ovT : Nat)
    (s w : List Char) (h0 : text ≠ []) (hmaxS : 1 ≤ maxS) (hmaxT : 1 ≤ maxT)
    (hs : s ∈ procSentences text) (hw : w ∈ pySplitWs text) :
    (∃ c ∈ chunk_by_sentences text maxS ovS, s <:+: c) ∧
    (∃ c ∈ chunk_by_tokens text maxT ovT, w <:+: c) := by
  constructor
  · unfold chunk_by_sentences
    rw [if_neg (by simpa [List.isEmpty_iff] using h0)]
    simp only []
    rw [if_neg (by simpa [List.isEmpty_iff] using List.ne_nil_of_mem hs)]
    obtain ⟨k, hks⟩ := List.mem_iff_get.mp hs
    obtain ⟨c, hc, hcx⟩ := windowLoop_cover (procSentences text) maxS ovS hmaxS
      (procSentences text).length 0 k.1 k.2 (by omega) (by omega)
    rw [hks] at hcx
    exact ⟨c, hc, hcx⟩
  · unfold chunk_by_tokens
    rw [if_neg (by simpa [List.isEmpty_iff] using h0)]
    obtain ⟨k, hks⟩ := List.mem_iff_get.mp hw
    obtain ⟨c, hc, hcx⟩ := windowLoop_cover (pySplitWs text) maxT ovT hmaxT
      (pySplitWs text).length 0 k.1 k.2 (by omega) (by omega)
    rw [hks] at hcx
    exact ⟨c, hc, hcx⟩

/-- Witness for C10 on a concrete two-sentence text. -/
theorem sentence_token_coverage_witness :
    (∃ c ∈ chunk_by_sentences ['H', 'i', '.', ' ', 'Y', 'o', '.'] 1 0,
      ['H', 'i', '.'] <:+: c) ∧
    (∃ c ∈ chunk_by_tokens ['H', 'i', '.', ' ', 'Y', 'o', '.'] 2 1,
      ['Y', 'o', '.'] <:+: c) :=
  sentence_token_coverage ['H', 'i', '.', ' ', 'Y', 'o', '.'] 1 0 2 1
    ['H', 'i', '.'] ['Y', 'o', '.'] (by decide) (by decide) (by decide) (by decide) (by decide)
